import Mathlib

/-!
Verification of the fixed-point decimal engine in `types/decimal.go`.

Shallow embedding conventions:
* the backing `*big.Int` of a present `Dec` is a Lean `ℤ`; the nil/absent
  state is modelled by `Option ℤ` where it matters (`String`, `Unmarshal`);
* Go byte slices and strings are `List ℕ` of byte values
  (45 = '-', 46 = '.', 43 = '+', 48..57 = '0'..'9');
* a Go `panic` (overflow, division by zero) is `Option.none`;
* `big.Int.Quo`/`Rem`/`QuoRem` truncate toward zero, hence `Int.tdiv`/`Int.tmod`;
* `big.Int.BitLen` is the bit length of the absolute value, modelled by the
  fueled `bitLenAux` below (correct for every argument at the bounds used,
  see `bitLenAux_le_iff`).
-/

/-- `Precision` from the source: number of decimal places (18). -/
def Precision : ℕ := 18

/-- `DecimalPrecisionBits` from the source: `Ceiling[Log2[10^Precision - 1]]`. -/
def DecimalPrecisionBits : ℕ := 60

/-- `decimalTruncateBits` from the source: `DecimalPrecisionBits - 1`. -/
def decimalTruncateBits : ℕ := DecimalPrecisionBits - 1

/-- Modelled from the spec: `maxBitLen` is the companion integer type's own
bit-length bound.  The companion `Int` type is not under `src/`; its bound is
256 bits (the spec derives `maxDecBitLen` from it by adding the 59 bits needed
to represent `10^18 - 1`). -/
def maxBitLen : ℕ := 256

/-- `maxDecBitLen` from the source: `maxBitLen + decimalTruncateBits`. -/
def maxDecBitLen : ℕ := maxBitLen + decimalTruncateBits

/-- `precisionReuse` from the source: `10^Precision`, the scaled value of one. -/
def precisionReuse : ℤ := 10 ^ Precision

/-- `fivePrecision` from the source: `precisionReuse / 2` (truncated). -/
def fivePrecision : ℤ := precisionReuse.tdiv 2

/-- Fueled bit-length: `bitLenAux fuel n` is the number of binary digits of
`n`, provided `n < 2 ^ fuel`; for larger `n` it returns `fuel`, which still
exceeds every bound compared against in the source (see `bitLenAux_le_iff`). -/
def bitLenAux : ℕ → ℕ → ℕ
  | 0, _ => 0
  | fuel + 1, n => if n = 0 then 0 else bitLenAux fuel (n / 2) + 1

/-- `big.Int.BitLen`: the length in bits of the absolute value. -/
def bitLen (x : ℤ) : ℕ := bitLenAux 512 x.natAbs

/-- `chopPrecisionAndRound` on a non-negative argument: remove `Precision`
digits with banker's rounding (the `d.Sign() != -1` path of the source). -/
def chopPrecisionAndRoundPos (d : ℤ) : ℤ :=
  let quo := d.tdiv precisionReuse
  let rem := d.tmod precisionReuse
  if rem = 0 then quo
  else if rem < fivePrecision then quo
  else if fivePrecision < rem then quo + 1
  else if quo % 2 = 0 then quo
  else quo + 1

/-- `chopPrecisionAndRound` from the source: a negative argument is negated,
chopped, and negated back (the source recursion runs at most once). -/
def chopPrecisionAndRound (d : ℤ) : ℤ :=
  if d < 0 then -(chopPrecisionAndRoundPos (-d)) else chopPrecisionAndRoundPos d

/-- `chopPrecisionAndTruncate` from the source: `d.Quo(d, precisionReuse)`. -/
def chopPrecisionAndTruncate (d : ℤ) : ℤ := d.tdiv precisionReuse

/-- `chopPrecisionAndRoundUp` from the source: for a negative argument the
source negates, truncates ("truncate since d is negative"), and negates back;
otherwise it adds one on any non-zero remainder. -/
def chopPrecisionAndRoundUp (d : ℤ) : ℤ :=
  if d < 0 then -(chopPrecisionAndTruncate (-d))
  else
    let quo := d.tdiv precisionReuse
    let rem := d.tmod precisionReuse
    if rem = 0 then quo else quo + 1

/-- `AddMut`: add scaled representations, panic (`none`) past `maxDecBitLen`. -/
def AddMut (d d2 : ℤ) : Option ℤ :=
  let r := d + d2
  if maxDecBitLen < bitLen r then none else some r

/-- `Add` (immutable form) clones the receiver and applies `AddMut`; value-level identical. -/
def DecAdd (d d2 : ℤ) : Option ℤ := AddMut d d2

/-- `SubMut`: subtract, panic past `maxDecBitLen`. -/
def SubMut (d d2 : ℤ) : Option ℤ :=
  let r := d - d2
  if maxDecBitLen < bitLen r then none else some r

/-- `Sub` (immutable form) clones the receiver and applies `SubMut`. -/
def DecSub (d d2 : ℤ) : Option ℤ := SubMut d d2

/-- `MulMut`: multiply the scaled representations, chop with banker's
rounding, panic past `maxDecBitLen`. -/
def MulMut (d d2 : ℤ) : Option ℤ :=
  let chopped := chopPrecisionAndRound (d * d2)
  if maxDecBitLen < bitLen chopped then none else some chopped

/-- `Mul` (immutable form) clones the receiver and applies `MulMut`. -/
def DecMul (d d2 : ℤ) : Option ℤ := MulMut d d2

/-- `MulTruncateMut`: multiply then chop by truncation, panic past the bound. -/
def MulTruncateMut (d d2 : ℤ) : Option ℤ :=
  let r := chopPrecisionAndTruncate (d * d2)
  if maxDecBitLen < bitLen r then none else some r

/-- `MulTruncate` (immutable form) clones the receiver and applies `MulTruncateMut`. -/
def DecMulTruncate (d d2 : ℤ) : Option ℤ := MulTruncateMut d d2

/-- `MulIntMut`: multiply by an unscaled integer, panic past the bound. -/
def MulIntMut (d i : ℤ) : Option ℤ :=
  let r := d * i
  if maxDecBitLen < bitLen r then none else some r

/-- `MulInt` (immutable form) clones the receiver and applies `MulIntMut`. -/
def DecMulInt (d i : ℤ) : Option ℤ := MulIntMut d i

/-- `MulInt64Mut`: multiply by an `int64`, panic past the bound. -/
def MulInt64Mut (d i : ℤ) : Option ℤ :=
  let r := d * i
  if maxDecBitLen < bitLen r then none else some r

/-- `MulInt64` (immutable form) clones the receiver and applies `MulInt64Mut`. -/
def DecMulInt64 (d i : ℤ) : Option ℤ := MulInt64Mut d i

/-- `QuoMut`: scale the dividend by `10^18` twice, truncated-divide by the
divisor (`big.Int.Quo` panics on a zero divisor), chop with banker's
rounding, panic past the bound. -/
def QuoMut (d d2 : ℤ) : Option ℤ :=
  if d2 = 0 then none
  else
    let r := chopPrecisionAndRound ((d * precisionReuse * precisionReuse).tdiv d2)
    if maxDecBitLen < bitLen r then none else some r

/-- `Quo` (immutable form) clones the receiver and applies `QuoMut`. -/
def DecQuo (d d2 : ℤ) : Option ℤ := QuoMut d d2

/-- `QuoTruncateMut`: same division with truncation chopping. -/
def QuoTruncateMut (d d2 : ℤ) : Option ℤ :=
  if d2 = 0 then none
  else
    let r := chopPrecisionAndTruncate ((d * precisionReuse * precisionReuse).tdiv d2)
    if maxDecBitLen < bitLen r then none else some r

/-- `QuoTruncate` (immutable form) clones the receiver and applies `QuoTruncateMut`. -/
def DecQuoTruncate (d d2 : ℤ) : Option ℤ := QuoTruncateMut d d2

/-- `QuoRoundupMut`: same division with round-up chopping. -/
def QuoRoundupMut (d d2 : ℤ) : Option ℤ :=
  if d2 = 0 then none
  else
    let r := chopPrecisionAndRoundUp ((d * precisionReuse * precisionReuse).tdiv d2)
    if maxDecBitLen < bitLen r then none else some r

/-- `QuoRoundUp` (immutable form) clones the receiver and applies `QuoRoundupMut`. -/
def DecQuoRoundUp (d d2 : ℤ) : Option ℤ := QuoRoundupMut d d2

/-- `QuoIntMut`: truncated division by an unscaled integer; no bound check. -/
def QuoIntMut (d i : ℤ) : Option ℤ :=
  if i = 0 then none else some (d.tdiv i)

/-- `QuoInt64Mut`: truncated division by an `int64`; no bound check. -/
def QuoInt64Mut (d i : ℤ) : Option ℤ :=
  if i = 0 then none else some (d.tdiv i)

/-- `TruncateDec`: drop the fractional digits and rescale
(`NewDecFromBigInt(chopPrecisionAndTruncateNonMutative(d.i))`). -/
def TruncateDec (d : ℤ) : ℤ := chopPrecisionAndTruncate d * precisionReuse

/-- `Ceil`: smallest integer value (as a decimal) at or above the input.
`QuoRem` truncates toward zero; the result is rescaled by
`NewDecFromBigInt`.  The source performs no bit-length check here. -/
def Ceil (d : ℤ) : ℤ :=
  let quo := d.tdiv precisionReuse
  let rem := d.tmod precisionReuse
  if rem = 0 then quo * precisionReuse
  else if rem < 0 then quo * precisionReuse
  else (quo + 1) * precisionReuse

/-- A byte is an ASCII decimal digit. -/
def isDigitByte (c : ℕ) : Prop := 48 ≤ c ∧ c ≤ 57

instance (c : ℕ) : Decidable (isDigitByte c) := by
  unfold isDigitByte; infer_instance

/-- Every byte of the list is an ASCII decimal digit. -/
def allDigits (l : List ℕ) : Prop := ∀ c ∈ l, isDigitByte c

instance (l : List ℕ) : Decidable (allDigits l) := by
  unfold allDigits; infer_instance

/-- Value of a byte string read as a base-10 numeral, most significant
byte first (digit bytes contribute `c - 48`). -/
def digitsVal (s : List ℕ) : ℕ := s.foldl (fun a c => a * 10 + (c - 48)) 0

/-- `big.Int.MarshalText` / `String` of a natural number: canonical base-10
ASCII bytes, most significant first, and `"0"` for zero. -/
def natChars (n : ℕ) : List ℕ :=
  if n = 0 then [48] else ((Nat.digits 10 n).map (fun d => 48 + d)).reverse

/-- `strings.Split(str, ".")` on byte strings: split around every `'.'`. -/
def splitOnDot : List ℕ → List (List ℕ)
  | [] => [[]]
  | c :: rest =>
    if c = 46 then [] :: splitOnDot rest
    else
      match splitOnDot rest with
      | [] => [[c]]
      | g :: gs => (c :: g) :: gs

/-- Accumulating base-10 scan used by `setString`: fails on the first
non-digit byte. -/
def parseDigitsAux : List ℕ → ℕ → Option ℕ
  | [], acc => some acc
  | c :: rest, acc =>
    if isDigitByte c then parseDigitsAux rest (acc * 10 + (c - 48)) else none

/-- `big.Int.SetString(s, 10)` (also the scanner behind
`big.Int.UnmarshalText`): an optional leading `'+'` or `'-'` followed by a
non-empty run of decimal digits; anything else fails. -/
def setString (s : List ℕ) : Option ℤ :=
  match s with
  | [] => none
  | c :: rest =>
    if c = 43 then
      if rest = [] then none else (parseDigitsAux rest 0).map (fun n => (n : ℤ))
    else if c = 45 then
      if rest = [] then none else (parseDigitsAux rest 0).map (fun n => -(n : ℤ))
    else (parseDigitsAux s 0).map (fun n => (n : ℤ))

/-- The error values returned by `NewDecFromStr`. -/
inductive DecError : Type
  | emptyStr
  | invalidLength
  | invalidStr
  | precisionTooHigh
  | setStringFailed
  | outOfRange
deriving DecidableEq

/-- Tail of `NewDecFromStr` after splitting on `'.'`: `combinedStr` holds
the concatenated integer and fractional digits, `lenDecs` the fractional
digit count, `neg` whether a leading `'-'` was stripped. -/
def NewDecFromStrCore (combinedStr : List ℕ) (lenDecs : ℕ) (neg : Bool) :
    Except DecError ℤ :=
  if Precision < lenDecs then Except.error DecError.precisionTooHigh
  else
    let combined := combinedStr ++ List.replicate (Precision - lenDecs) 48
    match setString combined with
    | none => Except.error DecError.setStringFailed
    | some v =>
      if maxDecBitLen < bitLen v then Except.error DecError.outOfRange
      else if neg then Except.ok (-v) else Except.ok v

/-- `NewDecFromStr` from the source, on byte strings: strip one leading
`'-'`, split on `'.'`, validate the pieces, right-pad the fractional digits
to `Precision`, parse in base 10, check the bit-length bound, reapply the
sign. -/
def NewDecFromStr (str : List ℕ) : Except DecError ℤ :=
  if str = [] then Except.error DecError.emptyStr
  else
    let neg : Bool := str.headD 0 = 45
    let str2 := if neg then str.tail else str
    if str2 = [] then Except.error DecError.emptyStr
    else
      match splitOnDot str2 with
      | [] => Except.error DecError.invalidStr
      | [comb] => NewDecFromStrCore comb 0 neg
      | [ip, fp] =>
        if fp.length = 0 ∨ ip.length = 0 then Except.error DecError.invalidLength
        else NewDecFromStrCore (ip ++ fp) fp.length neg
      | _ :: _ :: _ :: _ => Except.error DecError.invalidStr

/-- The absolute-value part of `Dec.String`: `bzInt` is the canonical decimal
text of the magnitude; short magnitudes are rendered as `0.` plus left-zero
padding, longer ones get a decimal point inserted `Precision` digits from the
right. -/
def decStrAbs (n : ℕ) : List ℕ :=
  let bz := natChars n
  let inputSize := bz.length
  if inputSize ≤ Precision then
    48 :: 46 :: (List.replicate (Precision - inputSize) 48 ++ bz)
  else
    bz.take (inputSize - Precision) ++ 46 :: bz.drop (inputSize - Precision)

/-- `Dec.String` for a present value: prefix `'-'` on negatives, then the
absolute-value rendering. -/
def DecString (z : ℤ) : List ℕ :=
  if z < 0 then 45 :: decStrAbs z.natAbs else decStrAbs z.natAbs

/-- The bytes `"<nil>"`.  Modelled from `math/big`: `(*big.Int).String` on a
nil receiver returns the text `<nil>` (and does not crash); the source calls
`d.i.String()` when `d.i == nil`. -/
def nilStringBytes : List ℕ := [60, 110, 105, 108, 62]

/-- `Dec.String` including the nil-receiver path of the source. -/
def DecStringOpt : Option ℤ → List ℕ
  | none => nilStringBytes
  | some z => DecString z

/-- `MaxSortableDec = OneDec().Quo(SmallestDec())`, the scaled value `10^36`
(see `MaxSortableDec_eq_quo`). -/
def MaxSortableDec : ℤ := 10 ^ 36

/-- `ValidSortableDec`: the absolute value is at most `MaxSortableDec`. -/
def ValidSortableDec (z : ℤ) : Prop := |z| ≤ MaxSortableDec

instance (z : ℤ) : Decidable (ValidSortableDec z) := by
  unfold ValidSortableDec; infer_instance

/-- Go `fmt.Sprintf("%0Ns", s)`: left-pad with `'0'` bytes to width `w`. -/
def padLeft (w : ℕ) (s : List ℕ) : List ℕ := List.replicate (w - s.length) 48 ++ s

/-- `SortableDecBytes` from the source: panic (`none`) outside the sortable
bounds; `"max"` and `"--"` for the two boundary sentinels; otherwise the
`Abs().String()` rendering zero-padded to width `Precision*2+1`, with `'-'`
prepended for negatives. -/
def SortableDecBytes (z : ℤ) : Option (List ℕ) :=
  if ¬ValidSortableDec z then none
  else if z = MaxSortableDec then some [109, 97, 120]
  else if z = -MaxSortableDec then some [45, 45]
  else if z < 0 then some (45 :: padLeft (Precision * 2 + 1) (decStrAbs z.natAbs))
  else some (padLeft (Precision * 2 + 1) (decStrAbs z.natAbs))

/-- Byte-wise lexicographic comparison (`bytes.Compare(a, b) < 0`): a strict
prefix sorts first. -/
def bytesLt : List ℕ → List ℕ → Bool
  | [], [] => false
  | [], _ :: _ => true
  | _ :: _, [] => false
  | a :: as', b :: bs' => a < b || (a = b && bytesLt as' bs')

/-- `Dec.Unmarshal` from the source, as a function from the caller-visible
receiver state and the input bytes to the new caller-visible state (or a
returned error).  On empty input the source executes `d = nil`, which rebinds
the local parameter only: the caller's receiver is unchanged and no error is
returned.  Otherwise the bytes are parsed by `big.Int.UnmarshalText` and the
bit-length bound is re-checked. -/
def Unmarshal (st : Option ℤ) (data : List ℕ) : Except String (Option ℤ) :=
  if data = [] then Except.ok st
  else
    match setString data with
    | none => Except.error "math/big: cannot unmarshal into Int"
    | some v =>
      if maxDecBitLen < bitLen v then Except.error "decimal out of range"
      else Except.ok (some v)

/-- The squaring loop of `PowerMut`: `for i := power; i > 1; { if i%2 != 0
{ tmp.MulMut(d) }; i /= 2; d.MulMut(d) }`.  `i` halves every iteration, so
fuel 64 covers every `uint64` exponent; a `MulMut` overflow panic is `none`. -/
def powerLoop : ℕ → ℕ → ℤ → ℤ → Option (ℤ × ℤ)
  | 0, _, x, tmp => some (x, tmp)
  | fuel + 1, i, x, tmp =>
    if i ≤ 1 then some (x, tmp)
    else
      match (if i % 2 ≠ 0 then MulMut tmp x else some tmp) with
      | none => none
      | some t2 =>
        match MulMut x x with
        | none => none
        | some x2 => powerLoop fuel (i / 2) x2 t2

/-- `PowerMut`: exponentiation by squaring; `power == 0` yields one
(`SetInt64(1)` rescales to `10^18`). -/
def PowerMut (d : ℤ) (power : ℕ) : Option ℤ :=
  if power = 0 then some precisionReuse
  else
    match powerLoop 64 power d precisionReuse with
    | none => none
    | some (x, tmp) => MulMut x tmp

/-- One iteration body of the `ApproxRoot` Newton loop: `prev :=
guess.Power(root-1)` (substituting the smallest unit when zero), `delta :=
((d / prev) - guess) / root`, `guess += delta`.  Returns the new guess and
delta, or `none` if any step panics. -/
def newtonStep (d : ℤ) (root : ℕ) (guess : ℤ) : Option (ℤ × ℤ) :=
  match PowerMut guess (root - 1) with
  | none => none
  | some prev0 =>
    let prev := if prev0 = 0 then 1 else prev0
    match QuoMut d prev with
    | none => none
    | some q =>
      match SubMut q guess with
      | none => none
      | some s =>
        match QuoInt64Mut s (root : ℤ) with
        | none => none
        | some delta =>
          match AddMut guess delta with
          | none => none
          | some g => some (g, delta)

/-- The `ApproxRoot` iteration: up to `fuel` steps, stopping once
`|delta| <= SmallestDec`; a panic anywhere is `none`. -/
def newtonLoop (d : ℤ) (root : ℕ) : ℕ → ℤ → ℤ → Option ℤ
  | 0, guess, _ => some guess
  | fuel + 1, guess, delta =>
    if ¬1 < |delta| then some guess
    else
      match newtonStep d root guess with
      | none => none
      | some gd => newtonLoop d root fuel gd.1 gd.2

/-- `ApproxRoot` on a non-negative receiver (the `d.IsNegative()` branch not
taken): special cases, then the Newton loop with 100 iterations starting from
`guess = delta = OneDec()`; a panic inside is recovered and surfaced as the
error `"out of bounds"`. -/
def ApproxRootNN (d : ℤ) (root : ℕ) : Except String ℤ :=
  if root = 1 ∨ d = 0 ∨ d = precisionReuse then Except.ok d
  else if root = 0 then Except.ok precisionReuse
  else
    match newtonLoop d root 100 precisionReuse precisionReuse with
    | none => Except.error "out of bounds"
    | some g => Except.ok g

/-- `ApproxRoot` from the source: a negative receiver recurses on its
absolute value and negates the result, propagating any error. -/
def ApproxRoot (d : ℤ) (root : ℕ) : Except String ℤ :=
  if d < 0 then
    match ApproxRootNN (-d) root with
    | Except.ok g => Except.ok (-g)
    | Except.error e => Except.error e
  else ApproxRootNN d root

/-- Build a parser input with an optional leading `'-'` sign byte. -/
def mkInput (neg : Bool) (l : List ℕ) : List ℕ := if neg then 45 :: l else l

/-! ### Bit-length bridge -/

theorem bitLenAux_le_iff (fuel : ℕ) :
    ∀ k n : ℕ, k < fuel → (bitLenAux fuel n ≤ k ↔ n < 2 ^ k) := by
  induction fuel with
  | zero => intro k n h; exact absurd h (Nat.not_lt_zero k)
  | succ fuel ih =>
    intro k n hk
    show (if n = 0 then 0 else bitLenAux fuel (n / 2) + 1) ≤ k ↔ n < 2 ^ k
    by_cases hn : n = 0
    · subst hn
      simp
    · rw [if_neg hn]
      cases k with
      | zero => simpa using hn
      | succ j =>
        have hj : j < fuel := Nat.lt_of_succ_lt_succ hk
        rw [Nat.succ_le_succ_iff, ih j (n / 2) hj, pow_succ]
        exact Nat.div_lt_iff_lt_mul (by norm_num)

theorem bitLen_le_iff {x : ℤ} {k : ℕ} (h : k < 512) :
    bitLen x ≤ k ↔ x.natAbs < 2 ^ k :=
  bitLenAux_le_iff 512 k x.natAbs h

theorem maxDecBitLen_eq : maxDecBitLen = 315 := rfl

theorem bitLen_guard (x : ℤ) : ¬maxDecBitLen < bitLen x ↔ x.natAbs < 2 ^ 315 := by
  rw [Nat.not_lt, maxDecBitLen_eq]
  exact bitLen_le_iff (by norm_num)

/-! ### Constants -/

theorem precisionReuse_eq : precisionReuse = 10 ^ 18 := rfl

theorem fivePrecision_eq : fivePrecision = 5 * 10 ^ 17 := by
  unfold fivePrecision
  rw [show precisionReuse = (10 : ℤ) ^ 18 from rfl,
    Int.tdiv_eq_ediv (by norm_num) (by norm_num),
    show (10 : ℤ) ^ 18 = 2 * (5 * 10 ^ 17) by norm_num,
    Int.mul_ediv_cancel_left _ (by norm_num)]

set_option maxRecDepth 10000 in
/-- `MaxSortableDec` is indeed the result of `OneDec().Quo(SmallestDec())`
computed by the source initializer. -/
theorem MaxSortableDec_eq_quo : DecQuo precisionReuse 1 = some MaxSortableDec := by decide

/-! ### Chopping characterizations -/

theorem chopPrecisionAndRoundPos_eq (d : ℤ) (hd : 0 ≤ d) :
    chopPrecisionAndRoundPos d =
      (let q := d / 10 ^ 18
       let r := d % 10 ^ 18
       if r = 0 then q
       else if r < 5 * 10 ^ 17 then q
       else if (5 * 10 ^ 17 : ℤ) < r then q + 1
       else if q % 2 = 0 then q else q + 1) := by
  have hp : (0 : ℤ) ≤ precisionReuse := by decide
  unfold chopPrecisionAndRoundPos
  rw [Int.tdiv_eq_ediv hd hp, Int.tmod_eq_emod hd hp, precisionReuse_eq,
    fivePrecision_eq]

/-- C5 helper: full characterization of `chopPrecisionAndRound`. -/
theorem chopPrecisionAndRound_eq (m : ℤ) :
    chopPrecisionAndRound m =
      (let q := |m| / 10 ^ 18
       let r := |m| % 10 ^ 18
       let mag :=
         if r = 0 then q
         else if r < 5 * 10 ^ 17 then q
         else if (5 * 10 ^ 17 : ℤ) < r then q + 1
         else if q % 2 = 0 then q else q + 1
       if m < 0 then -mag else mag) := by
  unfold chopPrecisionAndRound
  by_cases hm : m < 0
  · rw [if_pos hm, if_pos hm,
      chopPrecisionAndRoundPos_eq (-m) (by omega), abs_of_neg hm]
  · rw [if_neg hm, if_neg hm,
      chopPrecisionAndRoundPos_eq m (by omega), abs_of_nonneg (by omega)]

theorem chopPrecisionAndRoundUp_eq (m : ℤ) :
    chopPrecisionAndRoundUp m =
      (let q := |m| / 10 ^ 18
       let r := |m| % 10 ^ 18
       if 0 ≤ m then (if r = 0 then q else q + 1) else -q) := by
  have hp : (0 : ℤ) ≤ precisionReuse := by decide
  unfold chopPrecisionAndRoundUp chopPrecisionAndTruncate
  by_cases hm : m < 0
  · rw [if_pos hm, if_neg (by omega : ¬0 ≤ m),
      Int.tdiv_eq_ediv (by omega : (0:ℤ) ≤ -m) hp, precisionReuse_eq,
      abs_of_neg hm]
  · rw [if_neg hm, if_pos (by omega : 0 ≤ m),
      Int.tdiv_eq_ediv (by omega : (0:ℤ) ≤ m) hp,
      Int.tmod_eq_emod (by omega : (0:ℤ) ≤ m) hp, precisionReuse_eq,
      abs_of_nonneg (by omega)]

/-- Overflow-guard helper: when the guarded branch yields a value, the value
respects the bound. -/
theorem guard_some {r v : ℤ}
    (h : (if maxDecBitLen < bitLen r then none else some r) = some v) :
    bitLen v ≤ maxDecBitLen := by
  by_cases hb : maxDecBitLen < bitLen r
  · rw [if_pos hb] at h; cases h
  · rw [if_neg hb] at h; cases h; omega

/-- C5: for every integer `m`, writing `|m| = q * 10^18 + r` with
`0 ≤ r < 10^18`, `chopPrecisionAndRound` returns, with `m`'s original sign
reapplied: `q` if `r = 0`; `q` if `r < 5*10^17`; `q+1` if `r > 5*10^17`; and
on an exact half unit `q` when `q` is even, else `q+1`. -/
theorem C5_chopRound_half_even (m : ℤ) :
    chopPrecisionAndRound m =
      (let q := |m| / 10 ^ 18
       let r := |m| % 10 ^ 18
       let mag :=
         if r = 0 then q
         else if r < 5 * 10 ^ 17 then q
         else if (5 * 10 ^ 17 : ℤ) < r then q + 1
         else if q % 2 = 0 then q else q + 1
       if m < 0 then -mag else mag) :=
  chopPrecisionAndRound_eq m

/-- C3 (amended): `QuoRoundUp`/`QuoRoundupMut` rounds the chopped quotient
up (away from zero) only for a non-negative intermediate value: with
`m = (d * 10^18 * 10^18) tdiv d2` and `|m| = q * 10^18 + r`, a returned
value is `q` if `r = 0` else `q+1` when `0 ≤ m`, but `-q` (truncation toward
zero) when `m < 0`. -/
theorem C3_quoRoundUp_amended (d d2 : ℤ) (h2 : d2 ≠ 0) (v : ℤ)
    (hv : QuoRoundupMut d d2 = some v) :
    DecQuoRoundUp d d2 = some v ∧
    v = (let m := (d * precisionReuse * precisionReuse).tdiv d2
         let q := |m| / 10 ^ 18
         let r := |m| % 10 ^ 18
         if 0 ≤ m then (if r = 0 then q else q + 1) else -q) := by
  refine ⟨hv, ?_⟩
  unfold QuoRoundupMut at hv
  rw [if_neg h2] at hv
  have := guard_some hv
  have hv2 := hv
  by_cases hb : maxDecBitLen <
      bitLen (chopPrecisionAndRoundUp ((d * precisionReuse * precisionReuse).tdiv d2))
  · rw [if_pos hb] at hv2; cases hv2
  · rw [if_neg hb] at hv2
    cases hv2
    exact (chopPrecisionAndRoundUp_eq _)

set_option maxRecDepth 100000 in
/-- C3 counterexample: for `d = -1`, `d2 = 3` (scaled), the intermediate
value is negative with a non-zero remainder, and the code truncates toward
zero instead of rounding the magnitude up as the claim states. -/
theorem C3_counterexample :
    QuoRoundupMut (-(10 ^ 18)) (3 * 10 ^ 18) = some (-333333333333333333) ∧
    (-333333333333333333 : ℤ) ≠ -(333333333333333333 + 1) := by
  constructor
  · decide
  · decide

set_option maxRecDepth 100000 in
/-- C3 witness: a positive quotient with non-zero remainder rounds up. -/
theorem C3_witness :
    (333333333333333334 : ℤ) =
      (let m := ((10 ^ 18 : ℤ) * precisionReuse * precisionReuse).tdiv (3 * 10 ^ 18)
       let q := |m| / 10 ^ 18
       let r := |m| % 10 ^ 18
       if 0 ≤ m then (if r = 0 then q else q + 1) else -q) :=
  (C3_quoRoundUp_amended (10 ^ 18) (3 * 10 ^ 18) (by norm_num)
    333333333333333334 (by decide)).2

/-- C4 (amended): every listed operation except `Ceil` either panics or
returns a value whose bit length is within `maxDecBitLen`; the immutable
forms coincide with the mutable ones pointwise. -/
theorem C4_overflow_guard_amended :
    (∀ d d2 v : ℤ, AddMut d d2 = some v → bitLen v ≤ maxDecBitLen) ∧
    (∀ d d2 v : ℤ, SubMut d d2 = some v → bitLen v ≤ maxDecBitLen) ∧
    (∀ d d2 v : ℤ, MulMut d d2 = some v → bitLen v ≤ maxDecBitLen) ∧
    (∀ d d2 v : ℤ, MulTruncateMut d d2 = some v → bitLen v ≤ maxDecBitLen) ∧
    (∀ d d2 v : ℤ, QuoMut d d2 = some v → bitLen v ≤ maxDecBitLen) ∧
    (∀ d d2 v : ℤ, QuoTruncateMut d d2 = some v → bitLen v ≤ maxDecBitLen) ∧
    (∀ d d2 v : ℤ, QuoRoundupMut d d2 = some v → bitLen v ≤ maxDecBitLen) ∧
    (∀ d i v : ℤ, MulIntMut d i = some v → bitLen v ≤ maxDecBitLen) ∧
    (∀ d i v : ℤ, MulInt64Mut d i = some v → bitLen v ≤ maxDecBitLen) ∧
    (∀ d : ℤ, bitLen d ≤ maxDecBitLen → bitLen (TruncateDec d) ≤ maxDecBitLen) ∧
    (∀ d d2 : ℤ,
      DecAdd d d2 = AddMut d d2 ∧ DecSub d d2 = SubMut d d2 ∧
      DecMul d d2 = MulMut d d2 ∧ DecMulTruncate d d2 = MulTruncateMut d d2 ∧
      DecQuo d d2 = QuoMut d d2 ∧ DecQuoTruncate d d2 = QuoTruncateMut d d2 ∧
      DecQuoRoundUp d d2 = QuoRoundupMut d d2 ∧
      DecMulInt d d2 = MulIntMut d d2 ∧ DecMulInt64 d d2 = MulInt64Mut d d2) := by
  refine ⟨?_, ?_, ?_, ?_, ?_, ?_, ?_, ?_, ?_, ?_, ?_⟩
  · intro d d2 v h; exact guard_some h
  · intro d d2 v h; exact guard_some h
  · intro d d2 v h; exact guard_some h
  · intro d d2 v h; exact guard_some h
  · intro d d2 v h
    unfold QuoMut at h
    by_cases h2 : d2 = 0
    · rw [if_pos h2] at h; cases h
    · rw [if_neg h2] at h; exact guard_some h
  · intro d d2 v h
    unfold QuoTruncateMut at h
    by_cases h2 : d2 = 0
    · rw [if_pos h2] at h; cases h
    · rw [if_neg h2] at h; exact guard_some h
  · intro d d2 v h
    unfold QuoRoundupMut at h
    by_cases h2 : d2 = 0
    · rw [if_pos h2] at h; cases h
    · rw [if_neg h2] at h; exact guard_some h
  · intro d i v h; exact guard_some h
  · intro d i v h; exact guard_some h
  · intro d hd
    rw [bitLen_le_iff (by rw [maxDecBitLen_eq]; norm_num)] at hd ⊢
    calc (TruncateDec d).natAbs
        = (d.natAbs / precisionReuse.natAbs) * precisionReuse.natAbs := by
          unfold TruncateDec chopPrecisionAndTruncate
          rw [Int.natAbs_mul, Int.natAbs_tdiv]
          rfl
      _ ≤ d.natAbs := Nat.div_mul_le_self _ _
      _ < 2 ^ maxDecBitLen := hd
  · intro d d2
    exact ⟨rfl, rfl, rfl, rfl, rfl, rfl, rfl, rfl, rfl⟩

set_option maxRecDepth 100000 in
/-- C4 counterexample: `Ceil` has no overflow check; on the in-bound operand
`2^315 - 1` it silently returns a value of bit length 316. -/
theorem C4_counterexample :
    bitLen ((2 : ℤ) ^ 315 - 1) ≤ maxDecBitLen ∧
    maxDecBitLen < bitLen (Ceil ((2 : ℤ) ^ 315 - 1)) := by
  constructor
  · decide
  · decide

set_option maxRecDepth 100000 in
/-- C4 witness: concrete instances of the guarded-operation bound and of the
`TruncateDec` bound. -/
theorem C4_witness :
    bitLen ((2 : ℤ) * 10 ^ 18) ≤ maxDecBitLen ∧
    bitLen (TruncateDec precisionReuse) ≤ maxDecBitLen :=
  ⟨C4_overflow_guard_amended.1 precisionReuse precisionReuse (2 * 10 ^ 18)
      (by decide),
   (C4_overflow_guard_amended.2.2.2.2.2.2.2.2.2.1 precisionReuse (by decide))⟩

/-! ### Digit-string machinery -/

theorem foldl_digitsVal (l : List ℕ) :
    ∀ acc : ℕ, l.foldl (fun a c => a * 10 + (c - 48)) acc =
      acc * 10 ^ l.length + digitsVal l := by
  induction l with
  | nil => intro acc; simp [digitsVal]
  | cons c l ih =>
    intro acc
    show l.foldl _ (acc * 10 + (c - 48)) = _
    rw [ih (acc * 10 + (c - 48))]
    have hd : digitsVal (c :: l) = (c - 48) * 10 ^ l.length + digitsVal l := by
      show l.foldl _ (0 * 10 + (c - 48)) = _
      rw [ih (0 * 10 + (c - 48))]
      ring_nf
    rw [hd, List.length_cons, pow_succ]
    ring

theorem digitsVal_cons (c : ℕ) (l : List ℕ) :
    digitsVal (c :: l) = (c - 48) * 10 ^ l.length + digitsVal l := by
  show l.foldl _ (0 * 10 + (c - 48)) = _
  rw [foldl_digitsVal l (0 * 10 + (c - 48))]
  ring_nf

theorem digitsVal_append (a b : List ℕ) :
    digitsVal (a ++ b) = digitsVal a * 10 ^ b.length + digitsVal b := by
  show (a ++ b).foldl _ 0 = _
  rw [List.foldl_append, foldl_digitsVal b]
  rfl

theorem digitsVal_replicate_48 (k : ℕ) :
    digitsVal (List.replicate k 48) = 0 := by
  induction k with
  | zero => rfl
  | succ k ih => rw [List.replicate_succ, digitsVal_cons, ih]; simp

theorem digitsVal_lt (l : List ℕ) (h : allDigits l) :
    digitsVal l < 10 ^ l.length := by
  induction l with
  | nil => simp [digitsVal]
  | cons c l ih =>
    have hc : isDigitByte c := h c (List.mem_cons_self c l)
    have hl : allDigits l := fun x hx => h x (List.mem_cons_of_mem c hx)
    have h9 : c - 48 ≤ 9 := by rcases hc with ⟨h1, h2⟩; omega
    rw [digitsVal_cons, List.length_cons]
    calc (c - 48) * 10 ^ l.length + digitsVal l
        < (c - 48) * 10 ^ l.length + 10 ^ l.length := by
          exact Nat.add_lt_add_left (ih hl) _
      _ ≤ 9 * 10 ^ l.length + 10 ^ l.length :=
          Nat.add_le_add_right (Nat.mul_le_mul_right _ h9) _
      _ = 10 ^ (l.length + 1) := by rw [pow_succ]; ring

theorem digitsVal_rev_map (D : List ℕ) :
    digitsVal ((D.map (fun d => 48 + d)).reverse) = Nat.ofDigits 10 D := by
  induction D with
  | nil => rfl
  | cons d D ih =>
    rw [List.map_cons, List.reverse_cons, digitsVal_append, ih,
      Nat.ofDigits_cons]
    show _ * 10 ^ 1 + digitsVal [48 + d] = _
    rw [digitsVal_cons]
    simp [digitsVal]
    ring

theorem digitsVal_natChars (n : ℕ) : digitsVal (natChars n) = n := by
  unfold natChars
  by_cases hn : n = 0
  · subst hn; rfl
  · rw [if_neg hn, digitsVal_rev_map, Nat.ofDigits_digits]

theorem natChars_ne_nil (n : ℕ) : natChars n ≠ [] := by
  unfold natChars
  by_cases hn : n = 0
  · rw [if_pos hn]; simp
  · rw [if_neg hn]
    simp [Nat.digits_ne_nil_iff_ne_zero.mpr hn]

theorem natChars_allDigits (n : ℕ) : allDigits (natChars n) := by
  unfold natChars
  by_cases hn : n = 0
  · rw [if_pos hn]
    intro c hc
    simp at hc
    subst hc
    exact ⟨by norm_num, by norm_num⟩
  · rw [if_neg hn]
    intro c hc
    rw [List.mem_reverse, List.mem_map] at hc
    obtain ⟨d, hd, rfl⟩ := hc
    have := Nat.digits_lt_base (by norm_num) hd
    exact ⟨by omega, by omega⟩

theorem natChars_length (n : ℕ) (hn : n ≠ 0) :
    (natChars n).length = (Nat.digits 10 n).length := by
  unfold natChars
  rw [if_neg hn]
  simp

theorem digitsLen_le_of_lt {n k : ℕ} (h : n < 10 ^ k) :
    (Nat.digits 10 n).length ≤ k := by
  by_cases hn : n = 0
  · simp [hn]
  · have h1 := Nat.base_pow_length_digits_le 10 n (by norm_num) hn
    have h2 : (10 : ℕ) ^ (Nat.digits 10 n).length < 10 ^ (k + 1) := by
      calc (10 : ℕ) ^ (Nat.digits 10 n).length ≤ 10 * n := h1
        _ < 10 * 10 ^ k := by omega
        _ = 10 ^ (k + 1) := by rw [pow_succ]; ring
    have := (Nat.pow_lt_pow_iff_right (by norm_num : 1 < 10)).mp h2
    omega

theorem lt_of_digitsLen_le {n k : ℕ} (h : (Nat.digits 10 n).length ≤ k) :
    n < 10 ^ k :=
  lt_of_lt_of_le (Nat.lt_base_pow_length_digits (by norm_num))
    (Nat.pow_le_pow_right (by norm_num) h)

theorem parseDigitsAux_eq (l : List ℕ) (h : allDigits l) :
    ∀ acc : ℕ, parseDigitsAux l acc =
      some (l.foldl (fun a c => a * 10 + (c - 48)) acc) := by
  induction l with
  | nil => intro acc; rfl
  | cons c l ih =>
    intro acc
    have hc : isDigitByte c := h c (List.mem_cons_self c l)
    show (if isDigitByte c then parseDigitsAux l (acc * 10 + (c - 48)) else none) = _
    rw [if_pos hc, ih (fun x hx => h x (List.mem_cons_of_mem c hx))]
    rfl

theorem setString_digits (l : List ℕ) (h : allDigits l) (hne : l ≠ []) :
    setString l = some ((digitsVal l : ℕ) : ℤ) := by
  match l, hne with
  | c :: rest, _ =>
    have hc : isDigitByte c := h c (List.mem_cons_self c rest)
    show (if c = 43 then _ else if c = 45 then _ else _) = _
    rw [if_neg (by rcases hc with ⟨h1, _⟩; omega),
      if_neg (by rcases hc with ⟨h1, _⟩; omega),
      parseDigitsAux_eq (c :: rest) h 0]
    rfl

theorem splitOnDot_no_dot (l : List ℕ) (h : 46 ∉ l) : splitOnDot l = [l] := by
  induction l with
  | nil => rfl
  | cons c l ih =>
    have hc : c ≠ 46 := fun hc => h (hc ▸ List.mem_cons_self c l)
    show (if c = 46 then _ else _) = _
    rw [if_neg hc, ih (fun hx => h (List.mem_cons_of_mem c hx))]

theorem splitOnDot_append (a b : List ℕ) (h : 46 ∉ a) :
    splitOnDot (a ++ 46 :: b) = a :: splitOnDot b := by
  induction a with
  | nil =>
    show (if (46 : ℕ) = 46 then _ else _) = _
    rw [if_pos rfl]
  | cons c a ih =>
    have hc : c ≠ 46 := fun hc => h (hc ▸ List.mem_cons_self c a)
    show (if c = 46 then _ else _) = _
    rw [if_neg hc]
    simp only [List.append_eq]
    rw [ih (fun hx => h (List.mem_cons_of_mem c hx))]

theorem splitOnDot_length (l : List ℕ) :
    (splitOnDot l).length = l.count 46 + 1 := by
  induction l with
  | nil => rfl
  | cons c l ih =>
    show (if c = 46 then _ :: splitOnDot l
          else match splitOnDot l with
               | [] => [[c]]
               | g :: gs => (c :: g) :: gs).length = _
    by_cases hc : c = 46
    · subst hc
      rw [if_pos rfl]
      simp [ih]
    · rw [if_neg hc]
      rcases hsp : splitOnDot l with _ | ⟨g, gs⟩
      · rw [hsp] at ih; simp at ih
      · rw [hsp] at ih
        simp only [List.length_cons] at ih ⊢
        rw [List.count_cons]
        simp [hc, ih]

theorem allDigits_not_dot {l : List ℕ} (h : allDigits l) : 46 ∉ l := by
  intro hm
  rcases h 46 hm with ⟨h1, _⟩
  omega

theorem allDigits_head_ne_45 {l : List ℕ} (h : allDigits l) : l.headD 0 ≠ 45 := by
  cases l with
  | nil => simp
  | cons c rest =>
    rcases h c (List.mem_cons_self c rest) with ⟨h1, _⟩
    simp only [List.headD_cons]
    omega

theorem NewDecFromStr_reduce (neg : Bool) (l : List ℕ) (hne : l ≠ [])
    (hhead : l.headD 0 ≠ 45) :
    NewDecFromStr (mkInput neg l) =
      match splitOnDot l with
      | [] => Except.error DecError.invalidStr
      | [comb] => NewDecFromStrCore comb 0 neg
      | [ip, fp] =>
        if fp.length = 0 ∨ ip.length = 0 then Except.error DecError.invalidLength
        else NewDecFromStrCore (ip ++ fp) fp.length neg
      | _ :: _ :: _ :: _ => Except.error DecError.invalidStr := by
  cases neg
  · show NewDecFromStr l = _
    unfold NewDecFromStr
    rw [if_neg hne]
    have hh2 : ¬l.head?.getD 0 = 45 := by
      simpa [List.headD_eq_head?_getD] using hhead
    simp [hh2, hne]
  · show NewDecFromStr (45 :: l) = _
    unfold NewDecFromStr
    rw [if_neg (by simp : ¬(45 :: l = []))]
    simp [hne]

theorem allDigits_append {a b : List ℕ} (ha : allDigits a) (hb : allDigits b) :
    allDigits (a ++ b) := by
  intro c hc
  rcases List.mem_append.mp hc with h | h
  · exact ha c h
  · exact hb c h

theorem allDigits_replicate_48 (k : ℕ) : allDigits (List.replicate k 48) := by
  intro c hc
  rw [List.mem_replicate] at hc
  rw [hc.2]
  exact ⟨by norm_num, by norm_num⟩

theorem NewDecFromStrCore_digits (comb : List ℕ) (lenDecs : ℕ) (neg : Bool)
    (hc : allDigits comb) (hcne : comb ≠ []) (hlen : lenDecs ≤ 18) :
    NewDecFromStrCore comb lenDecs neg =
      (let v : ℕ := digitsVal comb * 10 ^ (18 - lenDecs)
       if maxDecBitLen < bitLen (v : ℤ) then Except.error DecError.outOfRange
       else if neg then Except.ok (-(v : ℤ)) else Except.ok (v : ℤ)) := by
  unfold NewDecFromStrCore
  rw [if_neg (by show ¬Precision < lenDecs; unfold Precision; omega)]
  show (match setString (comb ++ List.replicate (Precision - lenDecs) 48) with
        | none => Except.error DecError.setStringFailed
        | some v =>
          if maxDecBitLen < bitLen v then Except.error DecError.outOfRange
          else if neg then Except.ok (-v) else Except.ok v) = _
  rw [setString_digits _ (allDigits_append hc (allDigits_replicate_48 _))
      (by simp [hcne])]
  rw [digitsVal_append, digitsVal_replicate_48, List.length_replicate]
  show (if maxDecBitLen < bitLen ((digitsVal comb * 10 ^ (Precision - lenDecs) + 0 : ℕ) : ℤ)
        then _ else _) = _
  rw [Nat.add_zero]
  rfl

theorem parse_success_frac (neg : Bool) (ip fp : List ℕ) (hip : allDigits ip)
    (hipne : ip ≠ []) (hfp : allDigits fp) (hfpne : fp ≠ [])
    (hlen : fp.length ≤ 18) :
    NewDecFromStr (mkInput neg (ip ++ 46 :: fp)) =
      (let v : ℕ := digitsVal ip * 10 ^ 18 + digitsVal fp * 10 ^ (18 - fp.length)
       if maxDecBitLen < bitLen ((v : ℕ) : ℤ) then Except.error DecError.outOfRange
       else if neg then Except.ok (-(v : ℤ)) else Except.ok ((v : ℕ) : ℤ)) := by
  rw [NewDecFromStr_reduce neg _ (by simp)
      (by
        cases ip with
        | nil => exact absurd rfl hipne
        | cons c r =>
          rcases hip c (List.mem_cons_self c r) with ⟨h1, _⟩
          simp only [List.cons_append, List.headD_cons]
          omega)]
  rw [splitOnDot_append _ _ (allDigits_not_dot hip),
    splitOnDot_no_dot _ (allDigits_not_dot hfp)]
  show (if fp.length = 0 ∨ ip.length = 0 then _
        else NewDecFromStrCore (ip ++ fp) fp.length neg) = _
  rw [if_neg (by simp [hipne, hfpne])]
  rw [NewDecFromStrCore_digits _ _ _ (allDigits_append hip hfp) (by simp [hipne])
      hlen]
  have hv : digitsVal (ip ++ fp) * 10 ^ (18 - fp.length) =
      digitsVal ip * 10 ^ 18 + digitsVal fp * 10 ^ (18 - fp.length) := by
    rw [digitsVal_append, add_mul, mul_assoc, ← pow_add,
      Nat.add_sub_cancel' hlen]
  rw [hv]

theorem parse_success_int (neg : Bool) (ip : List ℕ) (hip : allDigits ip)
    (hipne : ip ≠ []) :
    NewDecFromStr (mkInput neg ip) =
      (let v : ℕ := digitsVal ip * 10 ^ 18
       if maxDecBitLen < bitLen ((v : ℕ) : ℤ) then Except.error DecError.outOfRange
       else if neg then Except.ok (-(v : ℤ)) else Except.ok ((v : ℕ) : ℤ)) := by
  rw [NewDecFromStr_reduce neg _ hipne (allDigits_head_ne_45 hip)]
  rw [splitOnDot_no_dot _ (allDigits_not_dot hip)]
  show NewDecFromStrCore ip 0 neg = _
  rw [NewDecFromStrCore_digits _ _ _ hip hipne (by omega)]

theorem parse_multidot (neg : Bool) (l : List ℕ) (hne : l ≠ [])
    (hhead : l.headD 0 ≠ 45) (hcnt : 2 ≤ l.count 46) :
    NewDecFromStr (mkInput neg l) = Except.error DecError.invalidStr := by
  rw [NewDecFromStr_reduce neg l hne hhead]
  have hlen := splitOnDot_length l
  rcases hsp : splitOnDot l with _ | ⟨a, _ | ⟨b, _ | ⟨c, rest⟩⟩⟩
  · rfl
  · rw [hsp] at hlen; simp at hlen; omega
  · rw [hsp] at hlen; simp at hlen; omega
  · rfl

theorem parse_invalid_length (neg : Bool) (ip fp : List ℕ) (hip : 46 ∉ ip)
    (hfp : 46 ∉ fp) (hhead : (ip ++ 46 :: fp).headD 0 ≠ 45)
    (h0 : ip = [] ∨ fp = []) :
    NewDecFromStr (mkInput neg (ip ++ 46 :: fp)) =
      Except.error DecError.invalidLength := by
  rw [NewDecFromStr_reduce neg _ (by simp) hhead,
    splitOnDot_append _ _ hip, splitOnDot_no_dot _ hfp]
  show (if fp.length = 0 ∨ ip.length = 0 then _ else _) = _
  rw [if_pos (by rcases h0 with h | h <;> simp [h])]

theorem parse_precision_exceeded (neg : Bool) (ip fp : List ℕ) (hip : 46 ∉ ip)
    (hfp : 46 ∉ fp) (hhead : (ip ++ 46 :: fp).headD 0 ≠ 45)
    (hipne : ip ≠ []) (hfpne : fp ≠ []) (hbig : 18 < fp.length) :
    NewDecFromStr (mkInput neg (ip ++ 46 :: fp)) =
      Except.error DecError.precisionTooHigh := by
  rw [NewDecFromStr_reduce neg _ (by simp) hhead,
    splitOnDot_append _ _ hip, splitOnDot_no_dot _ hfp]
  show (if fp.length = 0 ∨ ip.length = 0 then _
        else NewDecFromStrCore (ip ++ fp) fp.length neg) = _
  rw [if_neg (by simp [hipne, hfpne])]
  unfold NewDecFromStrCore
  rw [if_pos (by show Precision < fp.length; unfold Precision; omega)]

theorem decStrAbs_split (n : ℕ) :
    ∃ ip fp, decStrAbs n = ip ++ 46 :: fp ∧ allDigits ip ∧ allDigits fp ∧
      ip ≠ [] ∧ fp.length = 18 ∧ digitsVal (ip ++ fp) = n ∧
      ip.length = max 1 ((natChars n).length - 18) := by
  unfold decStrAbs
  by_cases hle : (natChars n).length ≤ Precision
  · refine ⟨[48], List.replicate (Precision - (natChars n).length) 48 ++ natChars n,
      by rw [if_pos hle]; rfl,
      ?_, ?_, by simp, ?_, ?_, ?_⟩
    · intro c hc
      simp at hc
      rw [hc]
      exact ⟨by norm_num, by norm_num⟩
    · exact allDigits_append (allDigits_replicate_48 _) (natChars_allDigits n)
    · have : Precision = 18 := rfl
      simp [List.length_replicate]
      omega
    · rw [digitsVal_append, digitsVal_append, digitsVal_replicate_48,
        digitsVal_natChars]
      have h48 : digitsVal [48] = 0 := by
        rw [digitsVal_cons]
        simp [digitsVal]
      rw [h48]
      ring
    · have : Precision = 18 := rfl
      simp
      omega
  · have hgt : Precision < (natChars n).length := by omega
    refine ⟨(natChars n).take ((natChars n).length - Precision),
      (natChars n).drop ((natChars n).length - Precision),
      by rw [if_neg hle], ?_, ?_, ?_, ?_, ?_, ?_⟩
    · intro c hc
      exact natChars_allDigits n c (List.mem_of_mem_take hc)
    · intro c hc
      exact natChars_allDigits n c (List.mem_of_mem_drop hc)
    · intro h0
      have := congrArg List.length h0
      simp at this
      omega
    · rw [List.length_drop]
      have : Precision = 18 := rfl
      omega
    · rw [List.take_append_drop, digitsVal_natChars]
    · rw [List.length_take]
      have : Precision = 18 := rfl
      omega

/-- C6: the string constructor's error cases and success value, as the spec
enumerates them, plus the concrete example `parse("-123.456")`. -/
theorem C6_fromString_cases :
    (NewDecFromStr [] = Except.error DecError.emptyStr ∧
     NewDecFromStr [45] = Except.error DecError.emptyStr) ∧
    (∀ (neg : Bool) (l : List ℕ), l ≠ [] → l.headD 0 ≠ 45 → 2 ≤ l.count 46 →
      NewDecFromStr (mkInput neg l) = Except.error DecError.invalidStr) ∧
    (∀ (neg : Bool) (ip fp : List ℕ), 46 ∉ ip → 46 ∉ fp →
      (ip ++ 46 :: fp).headD 0 ≠ 45 → ip = [] ∨ fp = [] →
      NewDecFromStr (mkInput neg (ip ++ 46 :: fp)) =
        Except.error DecError.invalidLength) ∧
    (∀ (neg : Bool) (ip fp : List ℕ), 46 ∉ ip → 46 ∉ fp →
      (ip ++ 46 :: fp).headD 0 ≠ 45 → ip ≠ [] → fp ≠ [] → 18 < fp.length →
      NewDecFromStr (mkInput neg (ip ++ 46 :: fp)) =
        Except.error DecError.precisionTooHigh) ∧
    (∀ (neg : Bool) (ip fp : List ℕ), allDigits ip → ip ≠ [] → allDigits fp →
      fp ≠ [] → fp.length ≤ 18 →
      NewDecFromStr (mkInput neg (ip ++ 46 :: fp)) =
        (let v : ℕ := digitsVal ip * 10 ^ 18 + digitsVal fp * 10 ^ (18 - fp.length)
         if maxDecBitLen < bitLen ((v : ℕ) : ℤ) then Except.error DecError.outOfRange
         else if neg then Except.ok (-(v : ℤ)) else Except.ok ((v : ℕ) : ℤ))) ∧
    (∀ (neg : Bool) (ip : List ℕ), allDigits ip → ip ≠ [] →
      NewDecFromStr (mkInput neg ip) =
        (let v : ℕ := digitsVal ip * 10 ^ 18
         if maxDecBitLen < bitLen ((v : ℕ) : ℤ) then Except.error DecError.outOfRange
         else if neg then Except.ok (-(v : ℤ)) else Except.ok ((v : ℕ) : ℤ))) ∧
    NewDecFromStr [45, 49, 50, 51, 46, 52, 53, 54] =
      Except.ok (-123456000000000000000 : ℤ) := by
  refine ⟨⟨rfl, rfl⟩, parse_multidot, parse_invalid_length,
    parse_precision_exceeded, parse_success_frac, parse_success_int, ?_⟩
  rfl

/-- C6 witness: the invalid-length and the fractional-success cases at
concrete inputs (`"1."` and `"4.5"`). -/
theorem C6_witness :
    NewDecFromStr (mkInput false ([49] ++ 46 :: [])) =
      Except.error DecError.invalidLength ∧
    NewDecFromStr (mkInput false ([52] ++ 46 :: [53])) =
      (let v : ℕ := digitsVal [52] * 10 ^ 18 + digitsVal [53] * 10 ^ (18 - [53].length)
       if maxDecBitLen < bitLen ((v : ℕ) : ℤ) then Except.error DecError.outOfRange
       else if false then Except.ok (-(v : ℤ)) else Except.ok ((v : ℕ) : ℤ)) :=
  ⟨C6_fromString_cases.2.2.1 false [49] [] (by decide) (by decide) (by decide)
      (Or.inr rfl),
   C6_fromString_cases.2.2.2.2.1 false [52] [53] (by decide) (by decide)
      (by decide) (by decide) (by decide)⟩

/-- C10: after one leading minus is stripped, the remaining text goes to the
base-10 integer parser, which itself accepts a sign: `"--5"` parses to
positive five and `"+5"` parses to five. -/
theorem C10_sign_leak :
    NewDecFromStr [45, 45, 53] = Except.ok ((5 * 10 ^ 18 : ℕ) : ℤ) ∧
    NewDecFromStr [43, 53] = Except.ok ((5 * 10 ^ 18 : ℕ) : ℤ) := by
  constructor
  · rfl
  · rfl

/-- C8: round-trip — for every present in-bound value, rendering with
`String` and re-parsing with `NewDecFromStr` succeeds and returns the same
value. -/
theorem C8_roundtrip (z : ℤ) (h : bitLen z ≤ maxDecBitLen) :
    NewDecFromStr (DecString z) = Except.ok z := by
  obtain ⟨ip, fp, heq, hip, hfp, hipne, hfplen, hval, _⟩ := decStrAbs_split z.natAbs
  have hfpne : fp ≠ [] := by
    intro h0
    rw [h0] at hfplen
    simp at hfplen
  have hlen : fp.length ≤ 18 := le_of_eq hfplen
  have hv : digitsVal ip * 10 ^ 18 + digitsVal fp * 10 ^ (18 - fp.length) =
      z.natAbs := by
    rw [digitsVal_append, hfplen] at hval
    rw [hfplen]
    simpa using hval
  have hbound : ¬maxDecBitLen <
      bitLen ((digitsVal ip * 10 ^ 18 + digitsVal fp * 10 ^ (18 - fp.length) : ℕ) : ℤ) := by
    rw [hv]
    have : bitLen ((z.natAbs : ℕ) : ℤ) = bitLen z := by
      unfold bitLen
      rw [Int.natAbs_ofNat]
    rw [this]
    omega
  by_cases hz : z < 0
  · have hds : DecString z = mkInput true (ip ++ 46 :: fp) := by
      unfold DecString
      rw [if_pos hz, heq]
      rfl
    rw [hds, parse_success_frac true ip fp hip hipne hfp hfpne hlen]
    show (if maxDecBitLen < bitLen _ then _ else _) = _
    rw [if_neg hbound]
    show Except.ok _ = _
    rw [hv]
    have : ((z.natAbs : ℕ) : ℤ) = -z := Int.ofNat_natAbs_of_nonpos (by omega)
    rw [this]
    simp
  · have hds : DecString z = mkInput false (ip ++ 46 :: fp) := by
      unfold DecString
      rw [if_neg hz, heq]
      rfl
    rw [hds, parse_success_frac false ip fp hip hipne hfp hfpne hlen]
    show (if maxDecBitLen < bitLen _ then _ else _) = _
    rw [if_neg hbound]
    show Except.ok _ = _
    rw [hv]
    rw [Int.natAbs_of_nonneg (by omega)]

set_option maxRecDepth 100000 in
/-- C8 witness: the round-trip at the spec's example value `-123.456`. -/
theorem C8_witness :
    NewDecFromStr (DecString (-123456000000000000000)) =
      Except.ok (-123456000000000000000 : ℤ) :=
  C8_roundtrip (-123456000000000000000) (by decide)

/-- C2: evaluation of `Unmarshal` at the failing input — a receiver holding
a present value, unmarshalled from empty bytes, returns no error but remains
present and unchanged (the source's `d = nil` rebinds a local), contradicting
the claimed reset to the absent sentinel. -/
theorem C2_unmarshal_empty :
    (∀ st : Option ℤ, Unmarshal st [] = Except.ok st) ∧
    Unmarshal (some ((5 * 10 ^ 18 : ℕ) : ℤ)) [] =
      Except.ok (some ((5 * 10 ^ 18 : ℕ) : ℤ)) ∧
    (some ((5 * 10 ^ 18 : ℕ) : ℤ) : Option ℤ) ≠ none :=
  ⟨fun st => rfl, rfl, by simp⟩

/-- C7: inside `ApproxRoot`, a panic in the Newton iteration is recovered
and surfaced as the returned error `"out of bounds"`, a successful loop
result is returned without error, and an exhausted iteration budget returns
the current best-effort guess with no error. -/
theorem C7_approxRoot_recover (d : ℤ) (root : ℕ) (hd : 0 ≤ d)
    (hspecial : ¬(root = 1 ∨ d = 0 ∨ d = precisionReuse)) (h0 : root ≠ 0) :
    (newtonLoop d root 100 precisionReuse precisionReuse = none →
      ApproxRoot d root = Except.error "out of bounds") ∧
    (∀ g : ℤ, newtonLoop d root 100 precisionReuse precisionReuse = some g →
      ApproxRoot d root = Except.ok g) ∧
    (∀ guess delta : ℤ, newtonLoop d root 0 guess delta = some guess) := by
  refine ⟨?_, ?_, fun guess delta => rfl⟩
  · intro h
    unfold ApproxRoot
    rw [if_neg (by omega)]
    unfold ApproxRootNN
    rw [if_neg hspecial, if_neg h0, h]
  · intro g h
    unfold ApproxRoot
    rw [if_neg (by omega)]
    unfold ApproxRootNN
    rw [if_neg hspecial, if_neg h0, h]

/-- C7 witness: the hypotheses hold at `d = 2` (scaled), `root = 2`; the
budget-exhaustion conjunct applied concretely. -/
theorem C7_witness :
    newtonLoop ((2 * 10 ^ 18 : ℕ) : ℤ) 2 0 precisionReuse precisionReuse =
      some precisionReuse :=
  (C7_approxRoot_recover ((2 * 10 ^ 18 : ℕ) : ℤ) 2 (by positivity)
    (by
      rw [precisionReuse_eq]
      norm_num)
    (by norm_num)).2.2 precisionReuse precisionReuse

/-- C9: `String` on an absent value returns the nil big-integer text
`"<nil>"`, which differs from the rendering of every present value. -/
theorem C9_nil_string :
    DecStringOpt none = nilStringBytes ∧
    ∀ z : ℤ, DecStringOpt (some z) ≠ DecStringOpt none := by
  refine ⟨rfl, ?_⟩
  intro z h
  have h2 : DecString z = nilStringBytes := h
  by_cases hz : z < 0
  · unfold DecString at h2
    rw [if_pos hz] at h2
    unfold nilStringBytes at h2
    injection h2 with h3 _
    omega
  · unfold DecString at h2
    rw [if_neg hz] at h2
    obtain ⟨ip, fp, heq, hip, _, hipne, _, _, _⟩ := decStrAbs_split z.natAbs
    rw [heq] at h2
    cases ip with
    | nil => exact hipne rfl
    | cons c rest =>
      rcases hip c (List.mem_cons_self c rest) with ⟨_, hc2⟩
      rw [List.cons_append] at h2
      unfold nilStringBytes at h2
      injection h2 with h3 _
      omega

/-! ### Lexicographic comparison machinery -/

theorem bytesLt_irrefl (s : List ℕ) : bytesLt s s = false := by
  induction s with
  | nil => rfl
  | cons a s ih =>
    show (decide (a < a) || (decide (a = a) && bytesLt s s)) = false
    simp [ih]

theorem bytesLt_cons_lt {a b : ℕ} (h : a < b) (s t : List ℕ) :
    bytesLt (a :: s) (b :: t) = true := by
  show (decide (a < b) || (decide (a = b) && bytesLt s t)) = true
  simp [h]

theorem bytesLt_cons_gt {a b : ℕ} (h : b < a) (s t : List ℕ) :
    bytesLt (a :: s) (b :: t) = false := by
  show (decide (a < b) || (decide (a = b) && bytesLt s t)) = false
  rw [decide_eq_false (by omega : ¬a < b), decide_eq_false (by omega : ¬a = b)]
  rfl

theorem bytesLt_cons_same (a : ℕ) (s t : List ℕ) :
    bytesLt (a :: s) (a :: t) = bytesLt s t := by
  show (decide (a < a) || (decide (a = a) && bytesLt s t)) = bytesLt s t
  simp

theorem bytesLt_append_same (p s t : List ℕ) :
    bytesLt (p ++ s) (p ++ t) = bytesLt s t := by
  induction p with
  | nil => rfl
  | cons c p ih => rw [List.cons_append, List.cons_append, bytesLt_cons_same, ih]

theorem bytesLt_append_ne {u u2 : List ℕ} (hlen : u.length = u2.length)
    (hne : u ≠ u2) (s t : List ℕ) :
    bytesLt (u ++ s) (u2 ++ t) = bytesLt u u2 := by
  induction u generalizing u2 with
  | nil =>
    cases u2 with
    | nil => exact absurd rfl hne
    | cons c2 r2 => simp at hlen
  | cons c u ih =>
    cases u2 with
    | nil => simp at hlen
    | cons c2 u2 =>
      have hlen2 : u.length = u2.length := by simpa using hlen
      by_cases hc : c = c2
      · subst hc
        have hne2 : u ≠ u2 := by
          intro h0
          exact hne (by rw [h0])
        rw [List.cons_append, List.cons_append, bytesLt_cons_same,
          bytesLt_cons_same, ih hlen2 hne2]
      · rcases Nat.lt_or_ge c c2 with h1 | h1
        · rw [List.cons_append, List.cons_append, bytesLt_cons_lt h1,
            bytesLt_cons_lt h1]
        · have h2 : c2 < c := by omega
          rw [List.cons_append, List.cons_append, bytesLt_cons_gt h2,
            bytesLt_cons_gt h2]

theorem digitsLt_iff {s : List ℕ} :
    ∀ {t : List ℕ}, s.length = t.length → allDigits s → allDigits t →
      (bytesLt s t = true ↔ digitsVal s < digitsVal t) := by
  induction s with
  | nil =>
    intro t hlen _ _
    cases t with
    | nil => simp [bytesLt, digitsVal]
    | cons c2 r2 => simp at hlen
  | cons c s ih =>
    intro t hlen hs ht
    cases t with
    | nil => simp at hlen
    | cons c2 t =>
      have hlen2 : s.length = t.length := by simpa using hlen
      have hsd : allDigits s := fun x hx => hs x (List.mem_cons_of_mem c hx)
      have htd : allDigits t := fun x hx => ht x (List.mem_cons_of_mem c2 hx)
      have hcd : isDigitByte c := hs c (List.mem_cons_self c s)
      have hcd2 : isDigitByte c2 := ht c2 (List.mem_cons_self c2 t)
      have hbs : digitsVal s < 10 ^ s.length := digitsVal_lt s hsd
      have hbt : digitsVal t < 10 ^ t.length := digitsVal_lt t htd
      rw [digitsVal_cons, digitsVal_cons, hlen2]
      by_cases hc : c = c2
      · subst hc
        rw [bytesLt_cons_same, ih hlen2 hsd htd]
        omega
      · rcases Nat.lt_or_ge c c2 with h1 | h1
        · rw [bytesLt_cons_lt h1]
          have hsub : c - 48 + 1 ≤ c2 - 48 := by
            rcases hcd with ⟨hx, _⟩
            omega
          constructor
          · intro _
            calc (c - 48) * 10 ^ t.length + digitsVal s
                < (c - 48) * 10 ^ t.length + 10 ^ t.length := by
                  rw [hlen2] at hbs
                  omega
              _ = (c - 48 + 1) * 10 ^ t.length := by ring
              _ ≤ (c2 - 48) * 10 ^ t.length :=
                  Nat.mul_le_mul_right _ hsub
              _ ≤ (c2 - 48) * 10 ^ t.length + digitsVal t := Nat.le_add_right _ _
          · intro _
            rfl
        · have h2 : c2 < c := by omega
          rw [bytesLt_cons_gt h2]
          have hsub : c2 - 48 + 1 ≤ c - 48 := by
            rcases hcd2 with ⟨hx, _⟩
            omega
          constructor
          · intro h0
            cases h0
          · intro h0
            exfalso
            have : (c2 - 48) * 10 ^ t.length + digitsVal t
                < (c - 48) * 10 ^ t.length + digitsVal s := by
              calc (c2 - 48) * 10 ^ t.length + digitsVal t
                  < (c2 - 48) * 10 ^ t.length + 10 ^ t.length := by omega
                _ = (c2 - 48 + 1) * 10 ^ t.length := by ring
                _ ≤ (c - 48) * 10 ^ t.length := Nat.mul_le_mul_right _ hsub
                _ ≤ (c - 48) * 10 ^ t.length + digitsVal s := Nat.le_add_right _ _
            omega

theorem bytesLt_total {s : List ℕ} :
    ∀ {t : List ℕ}, s.length = t.length → s ≠ t →
      bytesLt s t = true ∨ bytesLt t s = true := by
  induction s with
  | nil =>
    intro t hlen hne
    cases t with
    | nil => exact absurd rfl hne
    | cons c2 r2 => simp at hlen
  | cons c s ih =>
    intro t hlen hne
    cases t with
    | nil => simp at hlen
    | cons c2 t =>
      have hlen2 : s.length = t.length := by simpa using hlen
      by_cases hc : c = c2
      · subst hc
        have hne2 : s ≠ t := by
          intro h0
          exact hne (by rw [h0])
        rcases ih hlen2 hne2 with h | h
        · exact Or.inl (by rw [bytesLt_cons_same]; exact h)
        · exact Or.inr (by rw [bytesLt_cons_same]; exact h)
      · rcases Nat.lt_or_ge c c2 with h1 | h1
        · exact Or.inl (bytesLt_cons_lt h1 s t)
        · exact Or.inr (bytesLt_cons_lt (by omega) t s)

theorem digitsVal_inj {s t : List ℕ} (hlen : s.length = t.length)
    (hs : allDigits s) (ht : allDigits t)
    (h : digitsVal s = digitsVal t) : s = t := by
  by_contra hne
  rcases bytesLt_total hlen hne with h1 | h1
  · rw [digitsLt_iff hlen hs ht] at h1
    omega
  · rw [digitsLt_iff hlen.symm ht hs] at h1
    omega

/-! ### Sortable-key shape and ordering -/

theorem sortKeyPos_shape (n : ℕ) (hn : n < 10 ^ 36) :
    ∃ u v, padLeft 37 (decStrAbs n) = u ++ 46 :: v ∧ allDigits u ∧
      allDigits v ∧ u.length = 18 ∧ v.length = 18 ∧ digitsVal (u ++ v) = n := by
  obtain ⟨ip, fp, heq, hip, hfp, hipne, hfplen, hval, hiplen⟩ := decStrAbs_split n
  have hL : (natChars n).length ≤ 36 := by
    by_cases hn0 : n = 0
    · subst hn0
      show (natChars 0).length ≤ 36
      rw [show natChars 0 = [48] from rfl]
      simp
    · rw [natChars_length n hn0]
      exact digitsLen_le_of_lt hn
  have hip18 : ip.length ≤ 18 := by
    rw [hiplen]
    omega
  refine ⟨List.replicate (18 - ip.length) 48 ++ ip, fp, ?_, ?_, hfp, ?_, hfplen, ?_⟩
  · unfold padLeft
    rw [heq]
    have hlen37 : (ip ++ 46 :: fp).length = ip.length + 19 := by
      simp [hfplen]
    rw [hlen37, List.append_assoc]
    have : 37 - (ip.length + 19) = 18 - ip.length := by omega
    rw [this]
  · exact allDigits_append (allDigits_replicate_48 _) hip
  · simp
    omega
  · rw [List.append_assoc, digitsVal_append, digitsVal_replicate_48]
    simpa using hval

theorem keyLt_iff {m n : ℕ} (hm : m < 10 ^ 36) (hn : n < 10 ^ 36) :
    (bytesLt (padLeft 37 (decStrAbs m)) (padLeft 37 (decStrAbs n)) = true ↔
      m < n) := by
  obtain ⟨u, v, hequ, hu, hv, hul, hvl, huval⟩ := sortKeyPos_shape m hm
  obtain ⟨u2, v2, hequ2, hu2, hv2, hul2, hvl2, huval2⟩ := sortKeyPos_shape n hn
  rw [hequ, hequ2]
  have hmval : m = digitsVal u * 10 ^ 18 + digitsVal v := by
    rw [← huval, digitsVal_append, hvl]
  have hnval : n = digitsVal u2 * 10 ^ 18 + digitsVal v2 := by
    rw [← huval2, digitsVal_append, hvl2]
  have hbv : digitsVal v < 10 ^ 18 := by
    have := digitsVal_lt v hv
    rwa [hvl] at this
  have hbv2 : digitsVal v2 < 10 ^ 18 := by
    have := digitsVal_lt v2 hv2
    rwa [hvl2] at this
  by_cases huu : u = u2
  · subst huu
    rw [show u ++ 46 :: v = u ++ (46 :: v) from rfl,
      show u ++ 46 :: v2 = u ++ (46 :: v2) from rfl,
      bytesLt_append_same, bytesLt_cons_same,
      digitsLt_iff (by omega) hv hv2]
    omega
  · rw [show u ++ 46 :: v = u ++ (46 :: v) from rfl,
      show u2 ++ 46 :: v2 = u2 ++ (46 :: v2) from rfl,
      bytesLt_append_ne (by omega) huu,
      digitsLt_iff (by omega) hu hu2]
    have hneval : digitsVal u ≠ digitsVal u2 := by
      intro h0
      exact huu (digitsVal_inj (by omega) hu hu2 h0)
    constructor
    · intro h0
      have : digitsVal u + 1 ≤ digitsVal u2 := by omega
      calc m = digitsVal u * 10 ^ 18 + digitsVal v := hmval
        _ < (digitsVal u + 1) * 10 ^ 18 := by
            have : digitsVal u * 10 ^ 18 + digitsVal v
                < digitsVal u * 10 ^ 18 + 10 ^ 18 := by omega
            calc digitsVal u * 10 ^ 18 + digitsVal v
                < digitsVal u * 10 ^ 18 + 10 ^ 18 := by omega
              _ = (digitsVal u + 1) * 10 ^ 18 := by ring
        _ ≤ digitsVal u2 * 10 ^ 18 := Nat.mul_le_mul_right _ this
        _ ≤ n := by omega
    · intro h0
      by_contra hnot
      have h2 : digitsVal u2 < digitsVal u := by omega
      have : digitsVal u2 + 1 ≤ digitsVal u := by omega
      have hlt : n < m := by
        calc n = digitsVal u2 * 10 ^ 18 + digitsVal v2 := hnval
          _ < (digitsVal u2 + 1) * 10 ^ 18 := by
              calc digitsVal u2 * 10 ^ 18 + digitsVal v2
                  < digitsVal u2 * 10 ^ 18 + 10 ^ 18 := by omega
                _ = (digitsVal u2 + 1) * 10 ^ 18 := by ring
          _ ≤ digitsVal u * 10 ^ 18 := Nat.mul_le_mul_right _ this
          _ ≤ m := by omega
      omega

theorem keyPos_head (n : ℕ) (hn : n < 10 ^ 36) :
    ∃ c rest, padLeft 37 (decStrAbs n) = c :: rest ∧ 48 ≤ c ∧ c ≤ 57 := by
  obtain ⟨u, v, hequ, hu, _, hul, _, _⟩ := sortKeyPos_shape n hn
  cases u with
  | nil => simp at hul
  | cons c rest =>
    rcases hu c (List.mem_cons_self c rest) with ⟨h1, h2⟩
    exact ⟨c, rest ++ 46 :: v, by rw [hequ]; rfl, h1, h2⟩

theorem sortable_some_cases (z : ℤ) (ka : List ℕ)
    (h : SortableDecBytes z = some ka) :
    (z = MaxSortableDec ∧ ka = [109, 97, 120]) ∨
    (z = -MaxSortableDec ∧ ka = [45, 45]) ∨
    (z < 0 ∧ z.natAbs < 10 ^ 36 ∧ ka = 45 :: padLeft 37 (decStrAbs z.natAbs)) ∨
    (0 ≤ z ∧ z.natAbs < 10 ^ 36 ∧ ka = padLeft 37 (decStrAbs z.natAbs)) := by
  unfold SortableDecBytes at h
  split_ifs at h with h1 h2 h3 h4
  · cases h
    exact Or.inl ⟨h2, rfl⟩
  · cases h
    exact Or.inr (Or.inl ⟨h3, rfl⟩)
  · cases h
    refine Or.inr (Or.inr (Or.inl ⟨h4, ?_, rfl⟩))
    unfold ValidSortableDec MaxSortableDec at h1
    rw [Int.abs_eq_natAbs] at h1
    unfold MaxSortableDec at h2 h3
    omega
  · cases h
    refine Or.inr (Or.inr (Or.inr ⟨by omega, ?_, rfl⟩))
    unfold ValidSortableDec MaxSortableDec at h1
    rw [Int.abs_eq_natAbs] at h1
    unfold MaxSortableDec at h2 h3
    omega

theorem bytesLt_negkey_poskey {m : ℕ} (hm : m < 10 ^ 36) (p : List ℕ) :
    bytesLt (45 :: p) (padLeft 37 (decStrAbs m)) = true := by
  obtain ⟨c, rest, heq, h1, _⟩ := keyPos_head m hm
  rw [heq]
  exact bytesLt_cons_lt (by omega) p rest

theorem bytesLt_poskey_negkey {m : ℕ} (hm : m < 10 ^ 36) (p : List ℕ) :
    bytesLt (padLeft 37 (decStrAbs m)) (45 :: p) = false := by
  obtain ⟨c, rest, heq, h1, _⟩ := keyPos_head m hm
  rw [heq]
  exact bytesLt_cons_gt (by omega) rest p

theorem bytesLt_poskey_max {m : ℕ} (hm : m < 10 ^ 36) :
    bytesLt (padLeft 37 (decStrAbs m)) [109, 97, 120] = true := by
  obtain ⟨c, rest, heq, _, h2⟩ := keyPos_head m hm
  rw [heq]
  exact bytesLt_cons_lt (by omega) rest [97, 120]

theorem bytesLt_max_poskey {m : ℕ} (hm : m < 10 ^ 36) :
    bytesLt [109, 97, 120] (padLeft 37 (decStrAbs m)) = false := by
  obtain ⟨c, rest, heq, _, h2⟩ := keyPos_head m hm
  rw [heq]
  exact bytesLt_cons_gt (by omega) [97, 120] rest

theorem bytesLt_dashes_negkey {m : ℕ} (hm : m < 10 ^ 36) :
    bytesLt [45, 45] (45 :: padLeft 37 (decStrAbs m)) = true := by
  obtain ⟨c, rest, heq, h1, _⟩ := keyPos_head m hm
  rw [heq, show ([45, 45] : List ℕ) = 45 :: [45] from rfl, bytesLt_cons_same]
  exact bytesLt_cons_lt (by omega) [] rest

theorem bytesLt_negkey_dashes {m : ℕ} (hm : m < 10 ^ 36) :
    bytesLt (45 :: padLeft 37 (decStrAbs m)) [45, 45] = false := by
  obtain ⟨c, rest, heq, h1, _⟩ := keyPos_head m hm
  rw [heq, show ([45, 45] : List ℕ) = 45 :: [45] from rfl, bytesLt_cons_same]
  exact bytesLt_cons_gt (by omega) rest []

theorem bytesLt_dashes_poskey {m : ℕ} (hm : m < 10 ^ 36) :
    bytesLt [45, 45] (padLeft 37 (decStrAbs m)) = true := by
  obtain ⟨c, rest, heq, h1, _⟩ := keyPos_head m hm
  rw [heq]
  exact bytesLt_cons_lt (by omega) [45] rest

theorem bytesLt_poskey_dashes {m : ℕ} (hm : m < 10 ^ 36) :
    bytesLt (padLeft 37 (decStrAbs m)) [45, 45] = false := by
  obtain ⟨c, rest, heq, h1, _⟩ := keyPos_head m hm
  rw [heq]
  exact bytesLt_cons_gt (by omega) rest [45]

theorem bytesLt_negkey_max (p : List ℕ) :
    bytesLt (45 :: p) [109, 97, 120] = true :=
  bytesLt_cons_lt (by omega) p [97, 120]

theorem bytesLt_max_negkey (p : List ℕ) :
    bytesLt [109, 97, 120] (45 :: p) = false :=
  bytesLt_cons_gt (by omega) [97, 120] p

theorem bytesLt_negkey_negkey {m n : ℕ} (hm : m < 10 ^ 36) (hn : n < 10 ^ 36) :
    (bytesLt (45 :: padLeft 37 (decStrAbs m)) (45 :: padLeft 37 (decStrAbs n)) =
      true ↔ m < n) := by
  rw [bytesLt_cons_same]
  exact keyLt_iff hm hn

set_option maxRecDepth 100000 in
/-- C1 (amended): byte-wise lexicographic order of `SortableDecBytes` agrees
with numeric order whenever at least one operand is non-negative or is the
lower boundary sentinel; between two strictly negative non-boundary values
the byte order is the reverse of numeric order.  The boundary values encode
as `"max"` and `"--"`, which sort strictly after and strictly before every
non-boundary key respectively. -/
theorem C1_sortable_order_amended :
    (SortableDecBytes MaxSortableDec = some [109, 97, 120] ∧
     SortableDecBytes (-MaxSortableDec) = some [45, 45]) ∧
    ∀ a b : ℤ, ∀ ka kb : List ℕ,
      SortableDecBytes a = some ka → SortableDecBytes b = some kb →
      ((0 ≤ a ∨ 0 ≤ b ∨ a = -MaxSortableDec ∨ b = -MaxSortableDec) →
        (bytesLt ka kb = true ↔ a < b)) ∧
      (a < 0 → b < 0 → a ≠ -MaxSortableDec → b ≠ -MaxSortableDec →
        (bytesLt ka kb = true ↔ b < a)) ∧
      (a ≠ MaxSortableDec → a ≠ -MaxSortableDec →
        bytesLt ka [109, 97, 120] = true ∧ bytesLt [45, 45] ka = true) := by
  have hM : MaxSortableDec = (10 : ℤ) ^ 36 := rfl
  refine ⟨⟨by decide, by decide⟩, ?_⟩
  intro a b ka kb hka hkb
  rcases sortable_some_cases a ka hka with ⟨rfl, rfl⟩ | ⟨rfl, rfl⟩ |
      ⟨haneg, haN, rfl⟩ | ⟨hapos, haN, rfl⟩ <;>
    rcases sortable_some_cases b kb hkb with ⟨rfl, rfl⟩ | ⟨rfl, rfl⟩ |
      ⟨hbneg, hbN, rfl⟩ | ⟨hbpos, hbN, rfl⟩
  · refine ⟨?_, ?_, ?_⟩
    · intro _; rw [bytesLt_irrefl]; simp
    · intro h1 _ _ _; exfalso; omega
    · intro h1 _; exact absurd rfl h1
  · refine ⟨?_, ?_, ?_⟩
    · intro _
      rw [show bytesLt [109, 97, 120] [45, 45] = false from rfl]
      simp
      omega
    · intro h1 _ _ _; exfalso; omega
    · intro h1 _; exact absurd rfl h1
  · refine ⟨?_, ?_, ?_⟩
    · intro _; rw [bytesLt_max_negkey]; simp; omega
    · intro h1 _ _ _; exfalso; omega
    · intro h1 _; exact absurd rfl h1
  · refine ⟨?_, ?_, ?_⟩
    · intro _; rw [bytesLt_max_poskey hbN]; simp; omega
    · intro h1 _ _ _; exfalso; omega
    · intro h1 _; exact absurd rfl h1
  · refine ⟨?_, ?_, ?_⟩
    · intro _
      rw [show bytesLt [45, 45] [109, 97, 120] = true from rfl]
      simp
      omega
    · intro _ h2 _ _; exfalso; omega
    · intro _ h2; exact absurd rfl h2
  · refine ⟨?_, ?_, ?_⟩
    · intro _; rw [bytesLt_irrefl]; simp
    · intro _ _ h3 _; exact absurd rfl h3
    · intro _ h2; exact absurd rfl h2
  · refine ⟨?_, ?_, ?_⟩
    · intro _; rw [bytesLt_dashes_negkey hbN]; simp; omega
    · intro _ _ h3 _; exact absurd rfl h3
    · intro _ h2; exact absurd rfl h2
  · refine ⟨?_, ?_, ?_⟩
    · intro _; rw [bytesLt_dashes_poskey hbN]; simp; omega
    · intro _ _ h3 _; exact absurd rfl h3
    · intro _ h2; exact absurd rfl h2
  · refine ⟨?_, ?_, ?_⟩
    · intro _; rw [bytesLt_negkey_max]; simp; omega
    · intro _ h2 _ _; exfalso; omega
    · intro _ _; exact ⟨bytesLt_negkey_max _, bytesLt_dashes_negkey haN⟩
  · refine ⟨?_, ?_, ?_⟩
    · intro _; rw [bytesLt_negkey_dashes haN]; simp; omega
    · intro _ _ _ h4; exact absurd rfl h4
    · intro _ _; exact ⟨bytesLt_negkey_max _, bytesLt_dashes_negkey haN⟩
  · refine ⟨?_, ?_, ?_⟩
    · intro hOr
      exfalso
      rcases hOr with h | h | h | h <;> omega
    · intro _ _ _ _; rw [bytesLt_negkey_negkey haN hbN]; omega
    · intro _ _; exact ⟨bytesLt_negkey_max _, bytesLt_dashes_negkey haN⟩
  · refine ⟨?_, ?_, ?_⟩
    · intro _; rw [bytesLt_negkey_poskey hbN]; simp; omega
    · intro _ h2 _ _; exfalso; omega
    · intro _ _; exact ⟨bytesLt_negkey_max _, bytesLt_dashes_negkey haN⟩
  · refine ⟨?_, ?_, ?_⟩
    · intro _; rw [bytesLt_poskey_max haN]; simp; omega
    · intro h1 _ _ _; exfalso; omega
    · intro _ _; exact ⟨bytesLt_poskey_max haN, bytesLt_dashes_poskey haN⟩
  · refine ⟨?_, ?_, ?_⟩
    · intro _; rw [bytesLt_poskey_dashes haN]; simp; omega
    · intro h1 _ _ _; exfalso; omega
    · intro _ _; exact ⟨bytesLt_poskey_max haN, bytesLt_dashes_poskey haN⟩
  · refine ⟨?_, ?_, ?_⟩
    · intro _; rw [bytesLt_poskey_negkey haN]; simp; omega
    · intro h1 _ _ _; exfalso; omega
    · intro _ _; exact ⟨bytesLt_poskey_max haN, bytesLt_dashes_poskey haN⟩
  · refine ⟨?_, ?_, ?_⟩
    · intro _; rw [keyLt_iff haN hbN]; omega
    · intro h1 _ _ _; exfalso; omega
    · intro _ _; exact ⟨bytesLt_poskey_max haN, bytesLt_dashes_poskey haN⟩

theorem natChars_one : natChars 1 = [49] := by
  unfold natChars
  norm_num

theorem natChars_two : natChars 2 = [50] := by
  unfold natChars
  norm_num

theorem decStrAbs_one : decStrAbs 1 = 48 :: 46 :: (List.replicate 17 48 ++ [49]) := by
  unfold decStrAbs
  rw [natChars_one]
  rfl

theorem decStrAbs_two : decStrAbs 2 = 48 :: 46 :: (List.replicate 17 48 ++ [50]) := by
  unfold decStrAbs
  rw [natChars_two]
  rfl

set_option maxRecDepth 100000 in
theorem sortKey_neg_two :
    SortableDecBytes (-2) =
      some (45 :: (List.replicate 17 48 ++
        48 :: 46 :: (List.replicate 17 48 ++ [50]))) := by
  unfold SortableDecBytes
  rw [if_neg (by decide), if_neg (by decide), if_neg (by decide),
    if_pos (by decide)]
  rw [show Int.natAbs (-2) = 2 from rfl, decStrAbs_two]
  rfl

set_option maxRecDepth 100000 in
theorem sortKey_neg_one :
    SortableDecBytes (-1) =
      some (45 :: (List.replicate 17 48 ++
        48 :: 46 :: (List.replicate 17 48 ++ [49]))) := by
  unfold SortableDecBytes
  rw [if_neg (by decide), if_neg (by decide), if_neg (by decide),
    if_pos (by decide)]
  rw [show Int.natAbs (-1) = 1 from rfl, decStrAbs_one]
  rfl

set_option maxRecDepth 100000 in
theorem sortKey_pos_one :
    SortableDecBytes 1 =
      some (List.replicate 17 48 ++ 48 :: 46 :: (List.replicate 17 48 ++ [49])) := by
  unfold SortableDecBytes
  rw [if_neg (by decide), if_neg (by decide), if_neg (by decide),
    if_neg (by decide)]
  rw [show Int.natAbs 1 = 1 from rfl, decStrAbs_one]
  rfl

set_option maxRecDepth 100000 in
theorem sortKey_pos_two :
    SortableDecBytes 2 =
      some (List.replicate 17 48 ++ 48 :: 46 :: (List.replicate 17 48 ++ [50])) := by
  unfold SortableDecBytes
  rw [if_neg (by decide), if_neg (by decide), if_neg (by decide),
    if_neg (by decide)]
  rw [show Int.natAbs 2 = 2 from rfl, decStrAbs_two]
  rfl

/-- C1 counterexample: the negative pair `-2, -1` (scaled): numerically
`-2 < -1`, but the byte key of `-2` does not precede the byte key of `-1`
(it follows it), refuting the claimed order agreement for negative pairs. -/
theorem C1_counterexample :
    SortableDecBytes (-2) =
      some (45 :: (List.replicate 17 48 ++
        48 :: 46 :: (List.replicate 17 48 ++ [50]))) ∧
    SortableDecBytes (-1) =
      some (45 :: (List.replicate 17 48 ++
        48 :: 46 :: (List.replicate 17 48 ++ [49]))) ∧
    ((-2 : ℤ) < -1) ∧
    bytesLt
      (45 :: (List.replicate 17 48 ++ 48 :: 46 :: (List.replicate 17 48 ++ [50])))
      (45 :: (List.replicate 17 48 ++ 48 :: 46 :: (List.replicate 17 48 ++ [49])))
      = false ∧
    bytesLt
      (45 :: (List.replicate 17 48 ++ 48 :: 46 :: (List.replicate 17 48 ++ [49])))
      (45 :: (List.replicate 17 48 ++ 48 :: 46 :: (List.replicate 17 48 ++ [50])))
      = true :=
  ⟨sortKey_neg_two, sortKey_neg_one, by norm_num, by decide, by decide⟩

/-- C1 witness: the amended order agreement at the non-negative pair
`1 < 2` (scaled). -/
theorem C1_witness :
    bytesLt (List.replicate 17 48 ++ 48 :: 46 :: (List.replicate 17 48 ++ [49]))
      (List.replicate 17 48 ++ 48 :: 46 :: (List.replicate 17 48 ++ [50])) =
      true ↔ (1 : ℤ) < 2 :=
  (C1_sortable_order_amended.2 1 2 _ _ sortKey_pos_one sortKey_pos_two).1
    (Or.inl (by norm_num))
